import Mathlib

/-!
Verification of the playlist-refiner program (src/spotify_filter.py).

The program's core functions are shallowly embedded as executable Lean
definitions over `List Char` / `String`, `Nat` / `Int`, `Option`,
`Finset String` (for the keep cache, a Python `set` of track ids) and
explicit parameters standing for the remote playlist service.  The Python
regular expressions of `normalize_title` are embedded as deterministic
scanning functions that implement exactly the matches those patterns can
produce on the strings the pipeline feeds them (lowercased, whitespace
already collapsed, hence newline-free).
-/

set_option maxHeartbeats 1000000

namespace SpotifyFilter

/-- Whitespace characters, modelling the regex class `\s` of the source for
the ASCII range (space, tab, newline, carriage return, vertical tab, form
feed). -/
def pyWs (c : Char) : Bool :=
  c = ' ' || c = '\t' || c = '\n' || c = '\r' || c = '\x0b' || c = '\x0c'

/-- ASCII lowercasing, modelling `str.lower()` as used by `normalize_title`
and `normalize_artist`. -/
def lowerChar (c : Char) : Char :=
  if 'A' ≤ c ∧ c ≤ 'Z' then Char.ofNat (c.toNat + 32) else c

/-- `name.replace("–", "-").replace("—", "-")` (line 136): en and em dashes
become plain hyphens. -/
def unifyDashChar (c : Char) : Char :=
  if c = '–' || c = '—' then '-' else c

/-- `re.sub(r"\s+", " ", name)`: every maximal whitespace run becomes a
single space.  The Boolean flag records whether the previous character was
whitespace. -/
def collapseWsAux : Bool → List Char → List Char
  | _, [] => []
  | prevWs, c :: cs =>
    if pyWs c then
      if prevWs then collapseWsAux true cs
      else ' ' :: collapseWsAux true cs
    else c :: collapseWsAux false cs

def collapseWs (cs : List Char) : List Char := collapseWsAux false cs

/-- Drop the longest suffix whose characters satisfy `p`. -/
def dropTrailing (p : Char → Bool) (cs : List Char) : List Char :=
  ((cs.reverse).dropWhile p).reverse

/-- `str.strip()`. -/
def stripWsL (cs : List Char) : List Char :=
  dropTrailing pyWs (cs.dropWhile pyWs)

/-- A character stripped by `str.strip(" -")` (line 153). -/
def spaceOrDash (c : Char) : Bool := c = ' ' || c = '-'

/-- `str.strip(" -")`. -/
def stripSpaceDash (cs : List Char) : List Char :=
  dropTrailing spaceOrDash (cs.dropWhile spaceOrDash)

/-- The alternatives of the `qualifier_words` alternation (lines 139-142).
`remaster(ed)?` contributes both `remaster` and `remastered`. -/
def qualifierWords : List (List Char) :=
  ["remaster", "remastered", "reissue", "version", "edit", "mix", "remix",
   "mono", "stereo", "single", "radio edit", "album version"].map String.data

/-- Does `w` occur as a contiguous subsequence of the input? -/
def containsSeq (w : List Char) : List Char → Bool
  | [] => w.isEmpty
  | c :: cs => w.isPrefixOf (c :: cs) || containsSeq w cs

/-- Does some qualifier word occur in the input?  This is what the inner
`[^)]*(qualifier_words)[^)]*` of the bracket patterns requires of the
bracket content (no qualifier word contains the closing bracket). -/
def containsQualifier (cs : List Char) : Bool :=
  qualifierWords.any (fun w => containsSeq w cs)

/-- One match of `\s*\(([^)]*(qualifier_words)[^)]*)\)` (line 145; line 147
is the same with square brackets) anchored at the head of the input:
leading whitespace, the opening bracket `lb`, content free of the closing
bracket `rb` and containing a qualifier word, then `rb`.  Returns the input
remaining after the match. -/
def bracketMatchAt (lb rb : Char) (cs : List Char) : Option (List Char) :=
  match cs.dropWhile pyWs with
  | c :: rest =>
    if c = lb then
      match rest.dropWhile (fun d => !(d = rb)) with
      | d :: rest2 =>
        if d = rb && containsQualifier (rest.takeWhile (fun d2 => !(d2 = rb))) then
          some rest2
        else none
      | [] => none
    else none
  | [] => none

/-- `re.sub` scan for the bracket patterns: try a match at every position,
left to right; on a match drop it and continue after it.  Each step consumes
at least one input character, so fuel `cs.length` is never exhausted (on
the empty list no match is possible: `bracketMatchAt` needs the opening
bracket). -/
def subBracketGo (lb rb : Char) : Nat → List Char → List Char
  | 0, cs => cs
  | _, [] => []
  | fuel + 1, c :: cs' =>
    match bracketMatchAt lb rb (c :: cs') with
    | some rest => subBracketGo lb rb fuel rest
    | none => c :: subBracketGo lb rb fuel cs'

/-- Line 145: remove every `(... qualifier ...)` segment. -/
def stripParenQualifiers (cs : List Char) : List Char :=
  subBracketGo '(' ')' cs.length cs

/-- Line 147: remove every `[... qualifier ...]` segment. -/
def stripBracketQualifiers (cs : List Char) : List Char :=
  subBracketGo '[' ']' cs.length cs

/-- Word characters for the regex `\b` boundary (ASCII model). -/
def wordChar (c : Char) : Bool := c.isAlphanum || c = '_'

/-- Does some qualifier word occur at the head of the input with a word
boundary right after it? -/
def qualifierAtBoundary (cs : List Char) : Bool :=
  qualifierWords.any (fun w =>
    w.isPrefixOf cs &&
      (match (cs.drop w.length).head? with
       | none => true
       | some c => !wordChar c))

/-- A match of `\s*-\s*(\d{4}\s*)?(qualifier_words)\b.*$` (line 149)
anchored at the head of the input (`.*$` then always reaches the end: the
input is newline-free at this stage of the pipeline). -/
def dashQualifierMatchAt (cs : List Char) : Bool :=
  match cs.dropWhile pyWs with
  | c :: rest =>
    c = '-' &&
      ((match rest.dropWhile pyWs with
        | d1 :: d2 :: d3 :: d4 :: rest2 =>
          d1.isDigit && d2.isDigit && d3.isDigit && d4.isDigit &&
            qualifierAtBoundary (rest2.dropWhile pyWs)
        | _ => false)
       || qualifierAtBoundary (rest.dropWhile pyWs))
  | [] => false

/-- Line 149: truncate at the leftmost match of the dash-qualifier suffix
pattern. -/
def stripDashQualifierSuffix : List Char → List Char
  | [] => []
  | c :: cs =>
    if dashQualifierMatchAt (c :: cs) then [] else c :: stripDashQualifierSuffix cs

/-- A match of `\s*-\s*\d{4}\b$` (line 151) anchored at the head and
reaching the end of the input. -/
def dashYearEndAt (cs : List Char) : Bool :=
  match cs.dropWhile pyWs with
  | c :: rest =>
    c = '-' &&
      (match rest.dropWhile pyWs with
       | [d1, d2, d3, d4] => d1.isDigit && d2.isDigit && d3.isDigit && d4.isDigit
       | _ => false)
  | [] => false

/-- Line 151: truncate at the leftmost match of the bare `" - 2025"`
suffix pattern. -/
def stripDashYearSuffix : List Char → List Char
  | [] => []
  | c :: cs =>
    if dashYearEndAt (c :: cs) then [] else c :: stripDashYearSuffix cs

/-- The body of `normalize_title` (lines 127-154) over character lists. -/
def normalizeTitleL (cs : List Char) : List Char :=
  let n1 := cs.map lowerChar
  let n2 := n1.map unifyDashChar
  let n3 := stripWsL (collapseWs n2)
  let n4 := stripParenQualifiers n3
  let n5 := stripBracketQualifiers n4
  let n6 := stripDashQualifierSuffix n5
  let n7 := stripDashYearSuffix n6
  stripSpaceDash (collapseWs n7)

/-- Shallow embedding of `normalize_title` (lines 127-154). -/
def normalize_title (s : String) : String :=
  String.mk (normalizeTitleL s.data)

/-- Characters that can trigger the dash-unification or one of the four
qualifier-stripping substitutions of `normalize_title`. -/
def plainChar (c : Char) : Bool :=
  !(c = '(' || c = '[' || c = '-' || c = '–' || c = '—')

/-- Shallow embedding of `normalize_artist` (lines 157-159). -/
def normalize_artist (s : String) : String :=
  String.mk (stripWsL (s.data.map lowerChar))

/-- A playlist entry as assembled by the duplicate-handling steps
(lines 273-286 and 488-501): exactly the fields the decision logic reads. -/
structure Entry where
  playlist_index : Nat
  duration_ms : Int
  track_id : Option String
deriving DecidableEq, Repr

/-- A `{"track_id": ..., "position": ...}` removal request
(lines 433-434 and 575-576). -/
structure RemovalReq where
  track_id : Option String
  position : Nat
deriving DecidableEq, Repr

/-- Python truthiness of an optional track id: `if e["track_id"]:` is false
for `None` and for the empty string. -/
def truthyId : Option String → Bool
  | none => false
  | some s => !(s = "")

/-- `keep_set.add(track_id)` guarded by `if track_id:`. -/
def addTruthy (tid : Option String) (keep : Finset String) : Finset String :=
  match tid with
  | none => keep
  | some s => if s = "" then keep else insert s keep

/-- Stable insertion modelling Python's stable
`sorted(entries, key=lambda e: e["playlist_index"])` (line 295): an element
goes after strictly smaller keys and before equal or larger ones, the
placement every stable sort produces. -/
def insertByIndex (e : Entry) : List Entry → List Entry
  | [] => [e]
  | f :: fs =>
    if f.playlist_index < e.playlist_index then f :: insertByIndex e fs
    else e :: f :: fs

def sortByIndex (l : List Entry) : List Entry := l.foldr insertByIndex []

/-- Line 16. -/
def DUP_DURATION_THRESHOLD_SEC : Int := 3

/-- Line 243: `threshold_ms = DUP_DURATION_THRESHOLD_SEC * 1000`. -/
def thresholdMs : Int := DUP_DURATION_THRESHOLD_SEC * 1000

/-- Lines 291-306: the auto-duplicate candidates contributed by one group,
as (entry to delete, base) pairs, in sorted group order. -/
def autoCandidatesOfGroup (entries : List Entry) : List (Entry × Entry) :=
  if entries.length < 2 then []
  else
    match sortByIndex entries with
    | [] => []
    | base :: rest =>
      if base.duration_ms ≤ 0 then []
      else
        rest.filterMap (fun e =>
          if e.duration_ms ≤ 0 then none
          else if |e.duration_ms - base.duration_ms| ≤ thresholdMs then
            some (e, base)
          else none)

/-- Lines 181-187: add one (track id, position) to the `items_map`
accumulator, preserving first-insertion key order as a Python dict does and
appending the position to the key's list. -/
def insertItemsMap (m : List (String × List Nat)) (tid : String) (pos : Nat) :
    List (String × List Nat) :=
  match m with
  | [] => [(tid, [pos])]
  | (k, ps) :: rest =>
    if k = tid then (k, ps ++ [pos]) :: rest
    else (k, ps) :: insertItemsMap rest tid pos

/-- Lines 177-187: group the removal requests by track id, skipping
requests whose track id is `None`. -/
def itemsMapOf (dup_removals : List RemovalReq) : List (String × List Nat) :=
  dup_removals.foldl
    (fun m e =>
      match e.track_id with
      | none => m
      | some tid => insertItemsMap m tid e.position)
    []

/-- The `l[start:start + k]` slices for `start in range(0, len(l), k)`
(lines 213-221 and 698-699).  Fuel `l.length` is never exhausted when
`0 < k`: every step drops at least one element. -/
def chunksGo (k : Nat) : Nat → List α → List (List α)
  | 0, l => if l.isEmpty then [] else [l]
  | fuel + 1, l =>
    if l.isEmpty then []
    else l.take k :: chunksGo k fuel (l.drop k)

/-- Partition into consecutive slices of at most `k` elements. -/
def chunksOf (k : Nat) (l : List α) : List (List α) := chunksGo k l.length l

/-- Lines 219-227: issue the batches sequentially through the removal
service; `Except.error` stands for a raised `SpotifyException`, which stops
the loop.  Returns whether every call succeeded together with the calls
actually issued (the successful ones plus, on failure, the failing one). -/
def runBatches (svc : List (String × List Nat) → Except String Unit) :
    List (List (String × List Nat)) → Bool × List (List (String × List Nat))
  | [] => (true, [])
  | b :: bs =>
    match svc b with
    | Except.ok _ =>
      let r := runBatches svc bs
      (r.1, b :: r.2)
    | Except.error _ => (false, [b])

/-- `commit_duplicate_removals` (lines 164-227) with console output
dropped: returns the source function's Boolean result together with the
remote calls issued.  `confirm` is the user's reply to the confirmation
prompt read when `ask_confirm` is set. -/
def commit_duplicate_removals (svc : List (String × List Nat) → Except String Unit)
    (ask_confirm : Bool) (confirm : String) (dup_removals : List RemovalReq) :
    Bool × List (List (String × List Nat)) :=
  if dup_removals.isEmpty then (false, [])
  else
    let items_map := itemsMapOf dup_removals
    if items_map.isEmpty then (false, [])
    else if ask_confirm && !(confirm = "y") then (false, [])
    else runBatches svc (chunksOf 100 items_map)

/-- Lines 427-446: build the removal requests and the base-id set from the
final candidates, commit them, and add the bases to the keep cache only if
the commit reported a change.  Returns (changed, updated keep cache). -/
def autoCommitPhase (svc : List (String × List Nat) → Except String Unit)
    (final_candidates : List (Entry × Entry)) (keep : Finset String) :
    Bool × Finset String :=
  let dup_removals :=
    final_candidates.map (fun c => RemovalReq.mk c.1.track_id c.1.playlist_index)
  let base_ids := final_candidates.foldl (fun s c => addTruthy c.2.track_id s) ∅
  let changed := (commit_duplicate_removals svc false "" dup_removals).1
  (changed, if changed then keep ∪ base_ids else keep)

/-- `str.strip()` on strings. -/
def stripStr (s : String) : String := String.mk (stripWsL s.data)

/-- `resp.startswith("-")` (line 553): the first character is a hyphen. -/
def startsWithDash (s : String) : Bool :=
  match s.data with
  | c :: _ => c = '-'
  | [] => false

/-- `s[1:]`: drop the first character. -/
def dropFirst (s : String) : String := String.mk (s.data.drop 1)

/-- `int(x)` on one comma token (spaces already removed): an all-digit
token parses.  Tokens Python's `int` rejects, and the signed tokens that
would later fail the 1-based range check, both map to `none`: either way
the source reprompts. -/
def parseNatToken (s : List Char) : Option Nat :=
  if s.isEmpty then none
  else if s.all Char.isDigit then
    some (s.foldl (fun a c => 10 * a + (c.toNat - 48)) 0)
  else none

/-- `str.split(",")`. -/
def splitCommas : List Char → List (List Char)
  | [] => [[]]
  | c :: cs =>
    let r := splitCommas cs
    if c = ',' then [] :: r
    else
      match r with
      | t :: ts => (c :: t) :: ts
      | [] => [[c]]

/-- `[int(x) for x in s.replace(" ", "").split(",") if x]` with a raised
`ValueError` modelled as `none` (lines 556-567). -/
def parseIndexList (s : String) : Option (List Nat) :=
  let tokens :=
    (splitCommas (s.data.filter (fun c => !(c = ' ')))).filter
      (fun t => !t.isEmpty)
  tokens.foldr
    (fun t acc =>
      match parseNatToken t, acc with
      | some n, some ns => some (n :: ns)
      | _, _ => none)
    (some [])

/-- What the manual-review loop does after one reply for one group. -/
inductive ManualFlag where
  | proceed
  | reprompt
  | quitReview
deriving DecidableEq, Repr

/-- REMOVE mode (lines 571-580): entries at the selected 1-based positions
become removal requests, in group order; every other entry's id is added to
the keep cache. -/
def applyRemoveMode (selected : List Nat) :
    Nat → List Entry → Finset String → List RemovalReq × Finset String
  | _, [], keep => ([], keep)
  | i, e :: es, keep =>
    if i ∈ selected then
      let r := applyRemoveMode selected (i + 1) es keep
      (RemovalReq.mk e.track_id e.playlist_index :: r.1, r.2)
    else
      applyRemoveMode selected (i + 1) es (addTruthy e.track_id keep)

/-- KEEP mode (lines 581-590): selected entries are added to the keep
cache, every other entry becomes a removal request. -/
def applyKeepMode (selected : List Nat) :
    Nat → List Entry → Finset String → List RemovalReq × Finset String
  | _, [], keep => ([], keep)
  | i, e :: es, keep =>
    if i ∈ selected then
      applyKeepMode selected (i + 1) es (addTruthy e.track_id keep)
    else
      let r := applyKeepMode selected (i + 1) es keep
      (RemovalReq.mk e.track_id e.playlist_index :: r.1, r.2)

/-- Add every entry id of the group to the keep cache (lines 543-547 and
558-562). -/
def keepAllIds (entries : List Entry) (keep : Finset String) : Finset String :=
  entries.foldl (fun s e => addTruthy e.track_id s) keep

/-- One round of the manual-review prompt for one group (lines 532-592):
the reply `resp` (already stripped and lowercased by `input(...).strip()
.lower()`) yields the loop's next move, the removal requests the group
contributes, and the updated keep cache. -/
def manualGroupStep (resp : String) (entries : List Entry) (keep : Finset String) :
    ManualFlag × List RemovalReq × Finset String :=
  if resp = "q" then (ManualFlag.quitReview, [], keep)
  else if resp = "" then (ManualFlag.proceed, [], keepAllIds entries keep)
  else
    match parseIndexList
        (if startsWithDash resp then stripStr (dropFirst resp) else resp) with
    | none => (ManualFlag.reprompt, [], keep)
    | some nums =>
      if nums.isEmpty then (ManualFlag.proceed, [], keepAllIds entries keep)
      else if nums.all (fun n => decide (1 ≤ n) && decide (n ≤ entries.length)) then
        if startsWithDash resp then
          (ManualFlag.proceed, (applyRemoveMode nums 1 entries keep).1,
            (applyRemoveMode nums 1 entries keep).2)
        else
          (ManualFlag.proceed, (applyKeepMode nums 1 entries keep).1,
            (applyKeepMode nums 1 entries keep).2)
      else (ManualFlag.reprompt, [], keep)

/-- A track as read by the year filter (lines 622-678): exactly the fields
its decision logic reads. -/
structure Track where
  track_id : Option String
  release_date : Option String
  uri : String
deriving DecidableEq, Repr

/-- `album.get("release_date") or "unknown"` (line 636): `None` and the
empty string fall back to `"unknown"`. -/
def effReleaseDate (t : Track) : String :=
  match t.release_date with
  | none => "unknown"
  | some r => if r = "" then "unknown" else r

/-- Lines 639-642: the year string is `release_date[:4]` when the release
date is nonempty and those (up to four) characters are all digits
(`str.isdigit` is false on the empty string), else the track's year is
unknown (the `"????"` sentinel, here `none`). -/
def yearStrOf (t : Track) : Option (List Char) :=
  let rd := (effReleaseDate t).data
  let p := rd.take 4
  if !rd.isEmpty && !p.isEmpty && p.all Char.isDigit then some p else none

/-- `int(year_str)` for an all-digit string. -/
def digitsToNat (ds : List Char) : Nat :=
  ds.foldl (fun a c => 10 * a + (c.toNat - 48)) 0

/-- The album year the year filter considers, `none` when unknown. -/
def yearOf (t : Track) : Option Nat := (yearStrOf t).map digitsToNat

/-- `if track_id in keep_set` (line 629): `None` is never in the cache. -/
def inKeep (keep : Finset String) (tid : Option String) : Bool :=
  match tid with
  | none => false
  | some s => decide (s ∈ keep)

/-- What happens to one track in the year review. -/
inductive YearAction where
  | skippedInCache
  | autoKept
  | deleted
  | keptByUser
  | quitReview
  | reprompt
deriving DecidableEq, Repr

/-- Lines 661-678: outcome of the delete/keep/quit prompt. -/
def yearPromptResult (choice : String) : YearAction :=
  if choice = "q" then YearAction.quitReview
  else if choice = "y" then YearAction.deleted
  else if choice = "n" || choice = "" then YearAction.keptByUser
  else YearAction.reprompt

/-- Lines 622-678, one track of the year review: cached tracks are skipped,
a known year at or before the cutoff is auto-kept with no prompt, otherwise
the prompt decides via `choice`. -/
def yearTrackAction (cutoff : Nat) (keep : Finset String) (t : Track)
    (choice : String) : YearAction :=
  if inKeep keep t.track_id then YearAction.skippedInCache
  else
    match yearOf t with
    | some y =>
      if y ≤ cutoff then YearAction.autoKept
      else yearPromptResult choice
    | none => yearPromptResult choice

/-- The state update for one reviewed track (lines 669-678). -/
def yearTrackStep (cutoff : Nat) (t : Track) (choice : String)
    (keep : Finset String) (uris : List String) :
    Finset String × List String :=
  match yearTrackAction cutoff keep t choice with
  | YearAction.deleted => (keep, uris ++ [t.uri])
  | YearAction.keptByUser => (addTruthy t.track_id keep, uris)
  | _ => (keep, uris)

/-- The year filter's removal batches (lines 698-700). -/
def yearRemovalBatches (to_remove_uris : List String) : List (List String) :=
  chunksOf 100 to_remove_uris

/-- A JSON value, for the decision-cache file. -/
inductive JsonVal where
  | null
  | bool (b : Bool)
  | num (n : Int)
  | str (s : String)
  | arr (items : List JsonVal)
  | obj (fields : List (String × JsonVal))

/-- What reading and parsing the cache file can produce (lines 32-43): the
file may be absent, opening or `json.load` may raise, or a value parses. -/
inductive CacheLoad where
  | missing
  | unreadable
  | parsed (v : JsonVal)

/-- `data.setdefault("keep", [])` on an object's fields. -/
def setdefaultKeep (fields : List (String × JsonVal)) : List (String × JsonVal) :=
  if fields.any (fun p => p.1 = "keep") then fields
  else fields ++ [("keep", JsonVal.arr [])]

/-- `load_decision_cache` (lines 32-43), total: every failure path falls
back to the cache holding an empty "keep" list. -/
def load_decision_cache : CacheLoad → List (String × JsonVal)
  | CacheLoad.missing => [("keep", JsonVal.arr [])]
  | CacheLoad.unreadable => [("keep", JsonVal.arr [])]
  | CacheLoad.parsed v =>
    match v with
    | JsonVal.obj fields => setdefaultKeep fields
    | _ => [("keep", JsonVal.arr [])]

/-- Association lookup, modelling `data["keep"]` on the parsed object. -/
def lookupField (fields : List (String × JsonVal)) (k : String) : Option JsonVal :=
  match fields with
  | [] => none
  | (k2, v) :: rest => if k2 = k then some v else lookupField rest k

/-- Is the parsed value a JSON object (`isinstance(data, dict)`)? -/
def isObj : JsonVal → Bool
  | JsonVal.obj _ => true
  | _ => false

/-- A removal service whose calls all succeed. -/
def alwaysOkService : List (String × List Nat) → Except String Unit :=
  fun _ => Except.ok ()

/-- A removal service whose calls all raise. -/
def alwaysFailService : List (String × List Nat) → Except String Unit :=
  fun _ => Except.error "HTTP 502"

/-- Every whitespace character of the list is a plain space. -/
def spaceOnly (l : List Char) : Prop := ∀ c ∈ l, pyWs c = true → c = ' '

/-- No two adjacent whitespace characters. -/
def noTwoWs : List Char → Prop :=
  List.Chain' (fun a b => ¬(pyWs a = true ∧ pyWs b = true))

theorem toNat_ofNat_valid {n : Nat} (h : n.isValidChar) : (Char.ofNat n).toNat = n := by
  simp only [Char.ofNat, h, dite_true]
  simp [Char.ofNatAux, Char.toNat, UInt32.toNat, BitVec.toNat_ofNatLt]

theorem char_eq_of_toNat_eq {c d : Char} (h : c.toNat = d.toNat) : c = d := by
  apply Char.eq_of_val_eq
  apply UInt32.eq_of_toBitVec_eq
  apply BitVec.eq_of_toNat_eq
  exact h

theorem char_eq_iff_toNat {c d : Char} : c = d ↔ c.toNat = d.toNat :=
  ⟨fun h => h ▸ rfl, char_eq_of_toNat_eq⟩

theorem lowerChar_toNat (c : Char) :
    (lowerChar c).toNat =
      if 65 ≤ c.toNat ∧ c.toNat ≤ 90 then c.toNat + 32 else c.toNat := by
  unfold lowerChar
  by_cases h : 'A' ≤ c ∧ c ≤ 'Z'
  · have h1 : 65 ≤ c.toNat := by simpa [Char.le_def] using h.1
    have h2 : c.toNat ≤ 90 := by simpa [Char.le_def] using h.2
    rw [if_pos h, if_pos ⟨h1, h2⟩]
    exact toNat_ofNat_valid (Or.inl (by omega))
  · have h' : ¬(65 ≤ c.toNat ∧ c.toNat ≤ 90) := by simpa [Char.le_def] using h
    rw [if_neg h, if_neg h']

theorem lowerChar_eq_of_not_upper {c : Char} (h : ¬('A' ≤ c ∧ c ≤ 'Z')) :
    lowerChar c = c := by
  unfold lowerChar
  rw [if_neg h]

theorem pyWs_iff_toNat {c : Char} :
    pyWs c = true ↔
      c.toNat = 32 ∨ c.toNat = 9 ∨ c.toNat = 10 ∨ c.toNat = 13 ∨
        c.toNat = 11 ∨ c.toNat = 12 := by
  have e1 : (' ' : Char).toNat = 32 := rfl
  have e2 : ('\t' : Char).toNat = 9 := rfl
  have e3 : ('\n' : Char).toNat = 10 := rfl
  have e4 : ('\r' : Char).toNat = 13 := rfl
  have e5 : ('\x0b' : Char).toNat = 11 := rfl
  have e6 : ('\x0c' : Char).toNat = 12 := rfl
  simp only [pyWs, Bool.or_eq_true, decide_eq_true_eq, char_eq_iff_toNat,
    e1, e2, e3, e4, e5, e6]
  tauto

theorem plainChar_iff_toNat {c : Char} :
    plainChar c = true ↔
      ¬(c.toNat = 40 ∨ c.toNat = 91 ∨ c.toNat = 45 ∨
        c.toNat = 8211 ∨ c.toNat = 8212) := by
  have e1 : ('(' : Char).toNat = 40 := rfl
  have e2 : ('[' : Char).toNat = 91 := rfl
  have e3 : ('-' : Char).toNat = 45 := rfl
  have e4 : ('–' : Char).toNat = 8211 := rfl
  have e5 : ('—' : Char).toNat = 8212 := rfl
  simp only [plainChar, Bool.not_eq_true', Bool.or_eq_false_iff,
    decide_eq_false_iff_not, char_eq_iff_toNat, e1, e2, e3, e4, e5]
  tauto

theorem plainChar_lowerChar {c : Char} (h : plainChar c = true) :
    plainChar (lowerChar c) = true := by
  rw [plainChar_iff_toNat] at h ⊢
  rw [lowerChar_toNat]
  by_cases hc : 65 ≤ c.toNat ∧ c.toNat ≤ 90
  · rw [if_pos hc]; omega
  · rw [if_neg hc]; exact h

theorem pyWs_lowerChar (c : Char) : pyWs (lowerChar c) = pyWs c := by
  by_cases hc : 65 ≤ c.toNat ∧ c.toNat ≤ 90
  · have hl : (lowerChar c).toNat = c.toNat + 32 := by
      rw [lowerChar_toNat, if_pos hc]
    have h1 : pyWs (lowerChar c) = false := by
      rw [← Bool.not_eq_true, pyWs_iff_toNat, hl]; omega
    have h2 : pyWs c = false := by
      rw [← Bool.not_eq_true, pyWs_iff_toNat]; omega
    rw [h1, h2]
  · rw [lowerChar_eq_of_not_upper]
    intro h
    exact hc ⟨by simpa [Char.le_def] using h.1, by simpa [Char.le_def] using h.2⟩

theorem lowerChar_lowerChar (c : Char) : lowerChar (lowerChar c) = lowerChar c := by
  by_cases hc : 65 ≤ c.toNat ∧ c.toNat ≤ 90
  · have hl : (lowerChar c).toNat = c.toNat + 32 := by
      rw [lowerChar_toNat, if_pos hc]
    apply lowerChar_eq_of_not_upper
    intro h
    have : 65 ≤ (lowerChar c).toNat ∧ (lowerChar c).toNat ≤ 90 :=
      ⟨by simpa [Char.le_def] using h.1, by simpa [Char.le_def] using h.2⟩
    omega
  · have he : lowerChar c = c := lowerChar_eq_of_not_upper (fun h =>
      hc ⟨by simpa [Char.le_def] using h.1, by simpa [Char.le_def] using h.2⟩)
    rw [he, he]

theorem unifyDashChar_eq_of_plain {c : Char} (h : plainChar c = true) :
    unifyDashChar c = c := by
  unfold unifyDashChar
  rw [if_neg]
  intro hor
  have hor' : c = '–' ∨ c = '—' := by simpa using hor
  rw [plainChar_iff_toNat] at h
  rcases hor' with h' | h' <;> rw [char_eq_iff_toNat] at h' <;> simp [h'] at h

theorem map_eq_self_of {α : Type _} {f : α → α} :
    ∀ {l : List α}, (∀ c ∈ l, f c = c) → l.map f = l
  | [], _ => rfl
  | c :: cs, h => by
    rw [List.map_cons, h c (List.mem_cons_self c cs),
      map_eq_self_of (fun x hx => h x (List.mem_cons_of_mem c hx))]

theorem mem_of_head? {α : Type _} {l : List α} {c : α} (h : l.head? = some c) :
    c ∈ l := by
  cases l with
  | nil => simp at h
  | cons a as =>
    simp only [List.head?_cons, Option.some.injEq] at h
    rw [← h]
    exact List.mem_cons_self a as

theorem head?_dropWhile {α : Type _} {p : α → Bool} :
    ∀ {l : List α} {c : α}, (l.dropWhile p).head? = some c → p c = false := by
  intro l
  induction l with
  | nil => intro c h; simp [List.dropWhile] at h
  | cons a as ih =>
    intro c h
    rw [List.dropWhile_cons] at h
    by_cases hp : p a = true
    · rw [if_pos hp] at h; exact ih h
    · rw [if_neg hp] at h
      simp only [List.head?_cons, Option.some.injEq] at h
      rw [← h]
      exact Bool.not_eq_true _ ▸ hp

theorem dropWhile_eq_self_of_head {α : Type _} {p : α → Bool} {l : List α}
    (h : ∀ c, l.head? = some c → p c = false) : l.dropWhile p = l := by
  cases l with
  | nil => rfl
  | cons a as => rw [List.dropWhile_cons, if_neg (by simp [h a rfl])]

theorem mem_dropTrailing {p : Char → Bool} {l : List Char} {c : Char}
    (h : c ∈ dropTrailing p l) : c ∈ l := by
  unfold dropTrailing at h
  have h1 : c ∈ l.reverse.dropWhile p := List.mem_reverse.mp h
  exact List.mem_reverse.mp ((List.dropWhile_sublist p).subset h1)

theorem mem_stripWsL {l : List Char} {c : Char} (h : c ∈ stripWsL l) : c ∈ l :=
  (List.dropWhile_sublist pyWs).subset (mem_dropTrailing h)

theorem mem_stripSpaceDash {l : List Char} {c : Char}
    (h : c ∈ stripSpaceDash l) : c ∈ l :=
  (List.dropWhile_sublist spaceOrDash).subset (mem_dropTrailing h)

theorem dropTrailing_append (p : Char → Bool) (l : List Char) :
    dropTrailing p l ++ (l.reverse.takeWhile p).reverse = l := by
  unfold dropTrailing
  rw [← List.reverse_append, List.takeWhile_append_dropWhile, List.reverse_reverse]

theorem head?_append_left {α : Type _} {l t : List α} (h : l ≠ []) :
    (l ++ t).head? = l.head? := by
  cases l with
  | nil => exact absurd rfl h
  | cons a as => simp

theorem head?_dropTrailing {p : Char → Bool} {l : List Char}
    (h : dropTrailing p l ≠ []) : l.head? = (dropTrailing p l).head? := by
  conv_lhs => rw [← dropTrailing_append p l]
  rw [head?_append_left h]

theorem reverse_dropTrailing (p : Char → Bool) (l : List Char) :
    (dropTrailing p l).reverse = l.reverse.dropWhile p := by
  simp [dropTrailing]

theorem dropTrailing_eq_self {p : Char → Bool} {l : List Char}
    (h : ∀ c, l.reverse.head? = some c → p c = false) : dropTrailing p l = l := by
  unfold dropTrailing
  rw [dropWhile_eq_self_of_head h, List.reverse_reverse]

theorem mem_collapseWsAux {c : Char} :
    ∀ {l : List Char} {b : Bool}, c ∈ collapseWsAux b l → c = ' ' ∨ c ∈ l := by
  intro l
  induction l with
  | nil => intro b h; simp [collapseWsAux] at h
  | cons a as ih =>
    intro b h
    rw [collapseWsAux] at h
    by_cases hw : pyWs a = true
    · rw [if_pos hw] at h
      by_cases hb : b = true
      · rw [if_pos hb] at h
        rcases ih h with h' | h'
        · exact Or.inl h'
        · exact Or.inr (List.mem_cons_of_mem a h')
      · rw [if_neg hb] at h
        rcases List.mem_cons.mp h with h' | h'
        · exact Or.inl h'
        · rcases ih h' with h'' | h''
          · exact Or.inl h''
          · exact Or.inr (List.mem_cons_of_mem a h'')
    · rw [if_neg hw] at h
      rcases List.mem_cons.mp h with h' | h'
      · exact Or.inr (h' ▸ List.mem_cons_self a as)
      · rcases ih h' with h'' | h''
        · exact Or.inl h''
        · exact Or.inr (List.mem_cons_of_mem a h'')

theorem spaceOnly_collapseWsAux : ∀ {l : List Char} {b : Bool},
    spaceOnly (collapseWsAux b l) := by
  intro l
  induction l with
  | nil => intro b c hc; simp [collapseWsAux] at hc
  | cons a as ih =>
    intro b c hc hw
    rw [collapseWsAux] at hc
    by_cases ha : pyWs a = true
    · rw [if_pos ha] at hc
      by_cases hb : b = true
      · rw [if_pos hb] at hc; exact ih c hc hw
      · rw [if_neg hb] at hc
        rcases List.mem_cons.mp hc with h' | h'
        · exact h'
        · exact ih c h' hw
    · rw [if_neg ha] at hc
      rcases List.mem_cons.mp hc with h' | h'
      · rw [h'] at hw; exact absurd hw (by simp [ha])
      · exact ih c h' hw

theorem head?_collapseWsAux_true : ∀ {l : List Char} {c : Char},
    (collapseWsAux true l).head? = some c → pyWs c = false := by
  intro l
  induction l with
  | nil => intro c h; simp [collapseWsAux] at h
  | cons a as ih =>
    intro c h
    rw [collapseWsAux] at h
    by_cases ha : pyWs a = true
    · rw [if_pos ha, if_pos rfl] at h; exact ih h
    · rw [if_neg ha] at h
      simp only [List.head?_cons, Option.some.injEq] at h
      rw [← h]
      exact Bool.not_eq_true _ ▸ ha

theorem noTwoWs_collapseWsAux : ∀ {l : List Char} {b : Bool},
    noTwoWs (collapseWsAux b l) := by
  intro l
  induction l with
  | nil => intro b; rw [collapseWsAux]; exact List.chain'_nil
  | cons a as ih =>
    intro b
    rw [collapseWsAux]
    by_cases ha : pyWs a = true
    · rw [if_pos ha]
      by_cases hb : b = true
      · rw [if_pos hb]; exact ih
      · rw [if_neg hb]
        refine List.chain'_cons'.mpr ⟨?_, ih⟩
        intro y hy hcontra
        rw [head?_collapseWsAux_true hy] at hcontra
        exact Bool.false_ne_true hcontra.2
    · rw [if_neg ha]
      refine List.chain'_cons'.mpr ⟨?_, ih⟩
      intro y _ hcontra
      exact ha hcontra.1

theorem collapseWsAux_eq_self : ∀ {l : List Char} {b : Bool},
    spaceOnly l → noTwoWs l →
    (b = true → ∀ c, l.head? = some c → pyWs c = false) →
    collapseWsAux b l = l := by
  intro l
  induction l with
  | nil => intro b _ _ _; rfl
  | cons a as ih =>
    intro b hso hch hhd
    rw [collapseWsAux]
    by_cases ha : pyWs a = true
    · have hb : b = false := by
        by_contra hb'
        have := hhd (by simpa using hb') a rfl
        rw [this] at ha
        exact Bool.false_ne_true ha
      rw [if_pos ha, hb, if_neg (by simp)]
      have haSp : a = ' ' := hso a (List.mem_cons_self a as) ha
      have hch' := List.chain'_cons'.mp hch
      have htail : collapseWsAux true as = as := by
        apply ih
        · intro c hc hw; exact hso c (List.mem_cons_of_mem a hc) hw
        · exact hch'.2
        · intro _ c hc
          by_contra hw
          exact hch'.1 c hc ⟨ha, by simpa using hw⟩
      rw [htail, haSp]
    · rw [if_neg ha]
      have hch' := List.chain'_cons'.mp hch
      rw [ih (fun c hc hw => hso c (List.mem_cons_of_mem a hc) hw) hch'.2
        (by intro hf; exact absurd hf (by simp))]

theorem collapseWs_eq_self {l : List Char} (h1 : spaceOnly l) (h2 : noTwoWs l) :
    collapseWs l = l :=
  collapseWsAux_eq_self h1 h2 (by intro hf; exact absurd hf (by simp))

theorem noTwoWs_dropWhile {p : Char → Bool} {l : List Char} (h : noTwoWs l) :
    noTwoWs (l.dropWhile p) :=
  h.suffix (List.dropWhile_suffix p)

theorem noTwoWs_reverse {l : List Char} (h : noTwoWs l) : noTwoWs l.reverse :=
  List.chain'_reverse.mpr (h.imp (fun _ _ hab hc => hab ⟨hc.2, hc.1⟩))

theorem noTwoWs_dropTrailing {p : Char → Bool} {l : List Char} (h : noTwoWs l) :
    noTwoWs (dropTrailing p l) :=
  noTwoWs_reverse (noTwoWs_dropWhile (noTwoWs_reverse h))

theorem spaceOnly_of_subset {l m : List Char} (h : spaceOnly m)
    (hs : ∀ c ∈ l, c ∈ m) : spaceOnly l :=
  fun c hc hw => h c (hs c hc) hw

theorem mem_of_mem_dropWhile {α : Type _} {p : α → Bool} {l : List α} {c : α}
    (h : c ∈ l.dropWhile p) : c ∈ l :=
  (List.dropWhile_sublist p).subset h

theorem bracketMatchAt_mem {lb rb : Char} {cs r : List Char}
    (h : bracketMatchAt lb rb cs = some r) : lb ∈ cs := by
  unfold bracketMatchAt at h
  cases hdw : cs.dropWhile pyWs with
  | nil => rw [hdw] at h; exact absurd h (by simp)
  | cons c rest =>
    rw [hdw] at h
    by_cases hc : c = lb
    · have : c ∈ cs.dropWhile pyWs := hdw ▸ List.mem_cons_self c rest
      exact hc ▸ mem_of_mem_dropWhile this
    · simp [hc] at h

theorem subBracketGo_eq_self {lb rb : Char} :
    ∀ {fuel : Nat} {cs : List Char}, lb ∉ cs → subBracketGo lb rb fuel cs = cs := by
  intro fuel
  induction fuel with
  | zero => intro cs _; cases cs <;> rfl
  | succ n ih =>
    intro cs hmem
    cases hm : bracketMatchAt lb rb cs with
    | some rest => exact absurd (bracketMatchAt_mem hm) hmem
    | none =>
      cases cs with
      | nil => rfl
      | cons c cs' =>
        simp only [subBracketGo, hm]
        rw [ih (fun hc => hmem (List.mem_cons_of_mem c hc))]

theorem stripParenQualifiers_eq_self {cs : List Char} (h : '(' ∉ cs) :
    stripParenQualifiers cs = cs :=
  subBracketGo_eq_self h

theorem stripBracketQualifiers_eq_self {cs : List Char} (h : '[' ∉ cs) :
    stripBracketQualifiers cs = cs :=
  subBracketGo_eq_self h

theorem dashQualifierMatchAt_mem {cs : List Char}
    (h : dashQualifierMatchAt cs = true) : '-' ∈ cs := by
  unfold dashQualifierMatchAt at h
  cases hdw : cs.dropWhile pyWs with
  | nil => rw [hdw] at h; exact absurd h (by simp)
  | cons c rest =>
    rw [hdw] at h
    have hc : c = '-' := by
      have h' := h
      simp only [Bool.and_eq_true, decide_eq_true_eq] at h'
      exact h'.1
    have : c ∈ cs.dropWhile pyWs := hdw ▸ List.mem_cons_self c rest
    exact hc ▸ mem_of_mem_dropWhile this

theorem dashYearEndAt_mem {cs : List Char} (h : dashYearEndAt cs = true) :
    '-' ∈ cs := by
  unfold dashYearEndAt at h
  cases hdw : cs.dropWhile pyWs with
  | nil => rw [hdw] at h; exact absurd h (by simp)
  | cons c rest =>
    rw [hdw] at h
    have hc : c = '-' := by
      have h' := h
      simp only [Bool.and_eq_true, decide_eq_true_eq] at h'
      exact h'.1
    have : c ∈ cs.dropWhile pyWs := hdw ▸ List.mem_cons_self c rest
    exact hc ▸ mem_of_mem_dropWhile this

theorem stripDashQualifierSuffix_eq_self :
    ∀ {cs : List Char}, '-' ∉ cs → stripDashQualifierSuffix cs = cs := by
  intro cs
  induction cs with
  | nil => intro _; rfl
  | cons c cs' ih =>
    intro hmem
    rw [stripDashQualifierSuffix, if_neg, ih (fun hc => hmem (List.mem_cons_of_mem c hc))]
    intro hmatch
    exact hmem (dashQualifierMatchAt_mem hmatch)

theorem stripDashYearSuffix_eq_self :
    ∀ {cs : List Char}, '-' ∉ cs → stripDashYearSuffix cs = cs := by
  intro cs
  induction cs with
  | nil => intro _; rfl
  | cons c cs' ih =>
    intro hmem
    rw [stripDashYearSuffix, if_neg, ih (fun hc => hmem (List.mem_cons_of_mem c hc))]
    intro hmatch
    exact hmem (dashYearEndAt_mem hmatch)

theorem not_mem_of_plain {l : List Char} {d : Char}
    (hp : ∀ c ∈ l, plainChar c = true) (hd : plainChar d = false) : d ∉ l := by
  intro hmem
  rw [hp d hmem] at hd
  simp at hd

theorem spaceOnly_collapseWs (l : List Char) : spaceOnly (collapseWs l) :=
  spaceOnly_collapseWsAux

theorem noTwoWs_collapseWs (l : List Char) : noTwoWs (collapseWs l) :=
  noTwoWs_collapseWsAux

theorem spaceOnly_stripWsL {l : List Char} (h : spaceOnly l) :
    spaceOnly (stripWsL l) :=
  spaceOnly_of_subset h (fun _ hc => mem_stripWsL hc)

theorem noTwoWs_stripWsL {l : List Char} (h : noTwoWs l) : noTwoWs (stripWsL l) :=
  noTwoWs_dropTrailing (noTwoWs_dropWhile h)

theorem spaceOnly_stripSpaceDash {l : List Char} (h : spaceOnly l) :
    spaceOnly (stripSpaceDash l) :=
  spaceOnly_of_subset h (fun _ hc => mem_stripSpaceDash hc)

theorem noTwoWs_stripSpaceDash {l : List Char} (h : noTwoWs l) :
    noTwoWs (stripSpaceDash l) :=
  noTwoWs_dropTrailing (noTwoWs_dropWhile h)

theorem head?_stripSpaceDash {z : List Char} {c : Char}
    (h : (stripSpaceDash z).head? = some c) : spaceOrDash c = false := by
  have hne : stripSpaceDash z ≠ [] := by
    intro he
    rw [he] at h
    simp at h
  unfold stripSpaceDash at h hne
  rw [← head?_dropTrailing hne] at h
  exact head?_dropWhile h

theorem last_stripSpaceDash {z : List Char} {c : Char}
    (h : (stripSpaceDash z).reverse.head? = some c) : spaceOrDash c = false := by
  rw [stripSpaceDash, reverse_dropTrailing] at h
  exact head?_dropWhile h

theorem pyWs_false_of_spaceOnly_not_space {z : List Char} {c : Char}
    (hso : spaceOnly z) (hc : c ∈ z) (hns : ¬c = ' ') : pyWs c = false := by
  by_contra hw
  exact hns (hso c hc (by simpa using hw))

theorem normalizeTitleL_plain {l : List Char} (hp : ∀ c ∈ l, plainChar c = true) :
    normalizeTitleL l =
      stripSpaceDash (stripWsL (collapseWs (l.map lowerChar))) := by
  show stripSpaceDash (collapseWs (stripDashYearSuffix (stripDashQualifierSuffix
      (stripBracketQualifiers (stripParenQualifiers (stripWsL (collapseWs
        ((l.map lowerChar).map unifyDashChar)))))))) =
    stripSpaceDash (stripWsL (collapseWs (l.map lowerChar)))
  have hpw : ∀ c ∈ l.map lowerChar, plainChar c = true := by
    intro c hc
    rcases List.mem_map.mp hc with ⟨a, ha, rfl⟩
    exact plainChar_lowerChar (hp a ha)
  have hU : (l.map lowerChar).map unifyDashChar = l.map lowerChar :=
    map_eq_self_of (fun c hc => unifyDashChar_eq_of_plain (hpw c hc))
  rw [hU]
  have hpz : ∀ c ∈ stripWsL (collapseWs (l.map lowerChar)), plainChar c = true := by
    intro c hc
    rcases mem_collapseWsAux (mem_stripWsL hc) with h' | h'
    · rw [h']; decide
    · exact hpw c h'
  rw [stripParenQualifiers_eq_self (not_mem_of_plain hpz (by decide)),
    stripBracketQualifiers_eq_self (not_mem_of_plain hpz (by decide)),
    stripDashQualifierSuffix_eq_self (not_mem_of_plain hpz (by decide)),
    stripDashYearSuffix_eq_self (not_mem_of_plain hpz (by decide)),
    collapseWs_eq_self (spaceOnly_stripWsL (spaceOnly_collapseWs _))
      (noTwoWs_stripWsL (noTwoWs_collapseWs _))]

theorem stripWsL_stripSpaceDash_of_spaceOnly {z : List Char} (hso : spaceOnly z) :
    stripWsL (stripSpaceDash z) = stripSpaceDash z := by
  unfold stripWsL
  have h1 : ∀ c, (stripSpaceDash z).head? = some c → pyWs c = false := by
    intro c hc
    have hsd := head?_stripSpaceDash hc
    have hmem : c ∈ z := mem_stripSpaceDash (mem_of_head? hc)
    apply pyWs_false_of_spaceOnly_not_space hso hmem
    intro hsp
    rw [hsp] at hsd
    simp [spaceOrDash] at hsd
  have h2 : ∀ c, (stripSpaceDash z).reverse.head? = some c → pyWs c = false := by
    intro c hc
    have hsd := last_stripSpaceDash hc
    have hmem : c ∈ z := mem_stripSpaceDash (List.mem_reverse.mp (mem_of_head? hc))
    apply pyWs_false_of_spaceOnly_not_space hso hmem
    intro hsp
    rw [hsp] at hsd
    simp [spaceOrDash] at hsd
  rw [dropWhile_eq_self_of_head h1, dropTrailing_eq_self h2]

theorem stripSpaceDash_stripSpaceDash (z : List Char) :
    stripSpaceDash (stripSpaceDash z) = stripSpaceDash z := by
  conv_lhs => rw [stripSpaceDash]
  rw [dropWhile_eq_self_of_head (fun c hc => head?_stripSpaceDash hc),
    dropTrailing_eq_self (fun c hc => last_stripSpaceDash hc)]

theorem normalizeTitleL_idem_plain {l : List Char}
    (hp : ∀ c ∈ l, plainChar c = true) :
    normalizeTitleL (normalizeTitleL l) = normalizeTitleL l := by
  rw [normalizeTitleL_plain hp]
  have hsoz : spaceOnly (stripWsL (collapseWs (l.map lowerChar))) :=
    spaceOnly_stripWsL (spaceOnly_collapseWs _)
  have hchz : noTwoWs (stripWsL (collapseWs (l.map lowerChar))) :=
    noTwoWs_stripWsL (noTwoWs_collapseWs _)
  have hmem_y : ∀ c ∈ stripSpaceDash (stripWsL (collapseWs (l.map lowerChar))),
      c = ' ' ∨ c ∈ l.map lowerChar := by
    intro c hc
    exact mem_collapseWsAux (mem_stripWsL (mem_stripSpaceDash hc))
  have hpy : ∀ c ∈ stripSpaceDash (stripWsL (collapseWs (l.map lowerChar))),
      plainChar c = true := by
    intro c hc
    rcases hmem_y c hc with h' | h'
    · rw [h']; decide
    · rcases List.mem_map.mp h' with ⟨a, ha, rfl⟩
      exact plainChar_lowerChar (hp a ha)
  have hlow : ∀ c ∈ stripSpaceDash (stripWsL (collapseWs (l.map lowerChar))),
      lowerChar c = c := by
    intro c hc
    rcases hmem_y c hc with h' | h'
    · rw [h']; decide
    · rcases List.mem_map.mp h' with ⟨a, _, rfl⟩
      exact lowerChar_lowerChar a
  rw [normalizeTitleL_plain hpy, map_eq_self_of hlow,
    collapseWs_eq_self (spaceOnly_stripSpaceDash hsoz) (noTwoWs_stripSpaceDash hchz),
    stripWsL_stripSpaceDash_of_spaceOnly hsoz,
    stripSpaceDash_stripSpaceDash]

/-- C1 (counterexample): `normalize_title` is not idempotent.  On
`"a - 1999 -"` the first pass only strips the trailing `" -"` (the bare
`" - year"` rule does not fire because the string does not end in the year),
leaving `"a - 1999"`; the second pass then strips `" - 1999"`. -/
theorem normalize_title_not_idempotent :
    normalize_title (normalize_title "a - 1999 -") ≠ normalize_title "a - 1999 -" := by
  decide

/-- C1 (amended): `normalize_title` is idempotent on every input containing
none of the characters that can trigger the dash unification or one of the
four qualifier-stripping substitutions: `(`, `[`, `-`, en dash, em dash.
On such inputs normalization is lowercasing plus whitespace cleanup, and a
second pass changes nothing. -/
theorem normalize_title_idempotent_on_plain (s : String)
    (h : ∀ c ∈ s.data, plainChar c = true) :
    normalize_title (normalize_title s) = normalize_title s := by
  unfold normalize_title
  exact congrArg String.mk (normalizeTitleL_idem_plain h)

/-- Witness for C1 (amended) at the concrete input `"My  Song"`. -/
theorem normalize_title_idempotent_on_plain_witness :
    (∀ c ∈ ("My  Song" : String).data, plainChar c = true) ∧
      normalize_title (normalize_title "My  Song") = normalize_title "My  Song" :=
  ⟨by decide, normalize_title_idempotent_on_plain "My  Song" (by decide)⟩

/-- C8: `normalize_title` strips the remaster qualifier regardless of case
and bracket style: `"Song (Remastered 2011)"`, `"Song [2011 Remaster]"` and
`"Song - 2011 Remaster"` all normalize to `"song"`. -/
theorem normalize_title_strips_qualifiers :
    normalize_title "Song (Remastered 2011)" = "song" ∧
    normalize_title "Song [2011 Remaster]" = "song" ∧
    normalize_title "Song - 2011 Remaster" = "song" := by
  refine ⟨?_, ?_, ?_⟩ <;> decide

/-- C9: loading the decision cache never fails fatally; a missing file, an
unreadable/unparseable file, and a parsed value that is not a JSON object
all yield a cache whose "keep" entry is the empty list, with no error
propagated (the loader is a total function over all load outcomes). -/
theorem load_decision_cache_total_default :
    lookupField (load_decision_cache CacheLoad.missing) "keep"
        = some (JsonVal.arr []) ∧
    lookupField (load_decision_cache CacheLoad.unreadable) "keep"
        = some (JsonVal.arr []) ∧
    ∀ v : JsonVal, isObj v = false →
      lookupField (load_decision_cache (CacheLoad.parsed v)) "keep"
        = some (JsonVal.arr []) := by
  refine ⟨rfl, rfl, ?_⟩
  intro v hv
  cases v with
  | obj fields => simp [isObj] at hv
  | null => rfl
  | bool b => rfl
  | num n => rfl
  | str s => rfl
  | arr items => rfl

/-- Witness for C9 at the concrete non-object value `null`. -/
theorem load_decision_cache_total_default_witness :
    isObj JsonVal.null = false ∧
      lookupField (load_decision_cache (CacheLoad.parsed JsonVal.null)) "keep"
        = some (JsonVal.arr []) :=
  ⟨rfl, load_decision_cache_total_default.2.2 JsonVal.null rfl⟩

theorem itemsMapOf_all_none {l : List RemovalReq}
    (h : ∀ e ∈ l, e.track_id = none) : itemsMapOf l = [] := by
  unfold itemsMapOf
  suffices hgen : ∀ (m : List (String × List Nat)),
      l.foldl (fun m e =>
        match e.track_id with
        | none => m
        | some tid => insertItemsMap m tid e.position) m = m from hgen []
  induction l with
  | nil => intro m; rfl
  | cons a as ih =>
    intro m
    rw [List.foldl_cons, h a (List.mem_cons_self a as)]
    exact ih (fun e he => h e (List.mem_cons_of_mem a he)) m

/-- C10: called with an empty removal list, or with a list whose entries all
lack a track id, `commit_duplicate_removals` returns `False` and issues no
remote call (so the playlist is untouched, and the caller's keep-cache
update, which is guarded by the result, does not happen). -/
theorem commit_empty_or_all_none
    (svc : List (String × List Nat) → Except String Unit)
    (ask_confirm : Bool) (confirm : String) :
    commit_duplicate_removals svc ask_confirm confirm [] = (false, []) ∧
    ∀ removals : List RemovalReq, removals ≠ [] →
      (∀ e ∈ removals, e.track_id = none) →
      commit_duplicate_removals svc ask_confirm confirm removals = (false, []) := by
  constructor
  · rfl
  · intro removals hne hnone
    unfold commit_duplicate_removals
    rw [if_neg (by simpa using hne)]
    rw [if_pos (by simp [itemsMapOf_all_none hnone])]

/-- Witness for C10: a one-element removal list whose entry has no track
id. -/
theorem commit_empty_or_all_none_witness :
    commit_duplicate_removals alwaysOkService true "y"
        [RemovalReq.mk none 7] = (false, []) :=
  (commit_empty_or_all_none alwaysOkService true "y").2
    [RemovalReq.mk none 7] (by decide) (by decide)

theorem chunksGo_flatten {α : Type _} {k : Nat} (hk : 0 < k) :
    ∀ (fuel : Nat) (l : List α), l.length ≤ fuel →
      (chunksGo k fuel l).flatten = l := by
  intro fuel
  induction fuel with
  | zero =>
    intro l hl
    have h0 : l = [] := List.length_eq_zero.mp (Nat.le_zero.mp hl)
    subst h0
    rfl
  | succ n ih =>
    intro l hl
    cases l with
    | nil => rfl
    | cons a as =>
      have hlen : ((a :: as).drop k).length ≤ n := by
        have hl' : as.length + 1 ≤ n + 1 := by
          simpa using hl
        simp only [List.length_drop, List.length_cons]
        omega
      rw [chunksGo, if_neg (by simp), List.flatten_cons, ih ((a :: as).drop k) hlen,
        List.take_append_drop]

theorem chunksOf_flatten {α : Type _} {k : Nat} (hk : 0 < k) (l : List α) :
    (chunksOf k l).flatten = l :=
  chunksGo_flatten hk l.length l (le_refl _)

theorem chunksOf_le {α : Type _} {k : Nat} (hk : 0 < k) :
    ∀ (fuel : Nat) (l : List α), l.length ≤ fuel →
      ∀ c ∈ chunksGo k fuel l, c.length ≤ k := by
  intro fuel
  induction fuel with
  | zero =>
    intro l hl c hc
    have h0 : l = [] := List.length_eq_zero.mp (Nat.le_zero.mp hl)
    subst h0
    simp [chunksGo] at hc
  | succ n ih =>
    intro l hl c hc
    cases l with
    | nil => simp [chunksGo] at hc
    | cons a as =>
      have hlen : ((a :: as).drop k).length ≤ n := by
        have hl' : as.length + 1 ≤ n + 1 := by
          simpa using hl
        simp only [List.length_drop, List.length_cons]
        omega
      rw [chunksGo, if_neg (by simp)] at hc
      rcases List.mem_cons.mp hc with rfl | hc'
      · exact List.length_take_le k (a :: as)
      · exact ih ((a :: as).drop k) hlen c hc'

theorem chunksOf_count {α : Type _} {k : Nat} (hk : 0 < k) :
    ∀ (fuel : Nat) (l : List α), l.length ≤ fuel →
      (chunksGo k fuel l).length = (l.length + k - 1) / k := by
  have harith : ∀ n : Nat, 1 ≤ n →
      1 + ((n - k) + k - 1) / k = (n + k - 1) / k := by
    intro n hn
    rcases Nat.le_total k n with hkn | hnk
    · have e1 : n - k + k - 1 = n - 1 := by omega
      have e2 : n + k - 1 = (n - 1) + k := by omega
      rw [e1, e2, Nat.add_div_right _ hk, Nat.add_comm]
    · have e1 : n - k = 0 := by omega
      have e2 : n + k - 1 = (n - 1) + k := by omega
      have h1 : (n - 1) / k = 0 := Nat.div_eq_of_lt (by omega)
      have h2 : (0 + k - 1) / k = 0 := Nat.div_eq_of_lt (by omega)
      rw [e1, e2, Nat.add_div_right _ hk, h1, h2]
  have hzero : (k - 1) / k = 0 := Nat.div_eq_of_lt (by omega)
  intro fuel
  induction fuel with
  | zero =>
    intro l hl
    have h0 : l = [] := List.length_eq_zero.mp (Nat.le_zero.mp hl)
    subst h0
    simp [chunksGo, hzero]
  | succ n ih =>
    intro l hl
    cases l with
    | nil => simp [chunksGo, hzero]
    | cons a as =>
      have hlen : ((a :: as).drop k).length ≤ n := by
        have hl' : as.length + 1 ≤ n + 1 := by
          simpa using hl
        simp only [List.length_drop, List.length_cons]
        omega
      rw [chunksGo, if_neg (by simp), List.length_cons,
        ih ((a :: as).drop k) hlen, List.length_drop]
      rw [Nat.add_comm ((((a :: as).length - k) + k - 1) / k) 1]
      exact harith (a :: as).length (by simp)

theorem runBatches_calls_mem {svc : List (String × List Nat) → Except String Unit} :
    ∀ {bs : List (List (String × List Nat))} {b : List (String × List Nat)},
      b ∈ (runBatches svc bs).2 → b ∈ bs := by
  intro bs
  induction bs with
  | nil => intro b hb; simp [runBatches] at hb
  | cons a as ih =>
    intro b hb
    rw [runBatches] at hb
    cases hsvc : svc a with
    | ok u =>
      rw [hsvc] at hb
      rcases List.mem_cons.mp hb with rfl | hb'
      · exact List.mem_cons_self _ _
      · exact List.mem_cons_of_mem a (ih hb')
    | error e =>
      rw [hsvc] at hb
      rcases List.mem_singleton.mp hb with rfl
      exact List.mem_cons_self _ _

/-- C6: the removal commit partitions its payload list of size N into
consecutive chunks of at most 100 pairs whose concatenation is the original
list (so chunk sizes sum to N and order is preserved within and across
chunks), issuing ceil(N/100) = (N+99)/100 sequential calls, each issued
call being one of those chunks; the year filter's URI batches are chunked
the same way. -/
theorem removal_batches_partition :
    (∀ payload : List (String × List Nat),
      (chunksOf 100 payload).flatten = payload ∧
      (∀ c ∈ chunksOf 100 payload, c.length ≤ 100) ∧
      (chunksOf 100 payload).length = (payload.length + 99) / 100) ∧
    (∀ uris : List String,
      (yearRemovalBatches uris).flatten = uris ∧
      (∀ c ∈ yearRemovalBatches uris, c.length ≤ 100) ∧
      (yearRemovalBatches uris).length = (uris.length + 99) / 100) ∧
    (∀ (svc : List (String × List Nat) → Except String Unit)
      (ask_confirm : Bool) (confirm : String) (removals : List RemovalReq),
      ∀ b ∈ (commit_duplicate_removals svc ask_confirm confirm removals).2,
        b ∈ chunksOf 100 (itemsMapOf removals)) := by
  have hk : (0 : Nat) < 100 := by omega
  have hcount : ∀ (α : Type) (l : List α),
      (chunksOf 100 l).length = (l.length + 99) / 100 := by
    intro α l
    have h := chunksOf_count hk l.length l (le_refl _)
    have e : l.length + 100 - 1 = l.length + 99 := by omega
    rw [chunksOf, h, e]
  refine ⟨?_, ?_, ?_⟩
  · intro payload
    exact ⟨chunksOf_flatten hk payload,
      fun c hc => chunksOf_le hk payload.length payload (le_refl _) c hc,
      hcount _ payload⟩
  · intro uris
    exact ⟨chunksOf_flatten hk uris,
      fun c hc => chunksOf_le hk uris.length uris (le_refl _) c hc,
      hcount _ uris⟩
  · intro svc ask_confirm confirm removals b hb
    unfold commit_duplicate_removals at hb
    by_cases h1 : removals.isEmpty
    · rw [if_pos h1] at hb; simp at hb
    · rw [if_neg h1] at hb
      by_cases h2 : (itemsMapOf removals).isEmpty
      · rw [if_pos h2] at hb; simp at hb
      · rw [if_neg h2] at hb
        by_cases h3 : (ask_confirm && !(confirm = "y")) = true
        · rw [if_pos h3] at hb; simp at hb
        · rw [if_neg h3] at hb
          exact runBatches_calls_mem hb

/-- Witness for C6 at concrete payload and URI lists. -/
theorem removal_batches_partition_witness :
    (chunksOf 100 [("a", [0]), ("b", [2, 5])]).flatten
        = [("a", [0]), ("b", [2, 5])] ∧
    ∀ c ∈ yearRemovalBatches ["u1", "u2", "u3"], c.length ≤ 100 :=
  ⟨(removal_batches_partition.1 [("a", [0]), ("b", [2, 5])]).1,
   (removal_batches_partition.2.1 ["u1", "u2", "u3"]).2.1⟩

theorem runBatches_error {svc : List (String × List Nat) → Except String Unit} :
    ∀ {bs : List (List (String × List Nat))},
      (∃ b ∈ (runBatches svc bs).2, ∃ msg, svc b = Except.error msg) →
      (runBatches svc bs).1 = false := by
  intro bs
  induction bs with
  | nil =>
    rintro ⟨b, hb, -⟩
    simp [runBatches] at hb
  | cons a as ih =>
    rintro ⟨b, hb, msg, hmsg⟩
    cases hsvc : svc a with
    | ok u =>
      rw [runBatches, hsvc] at hb ⊢
      dsimp only at hb ⊢
      rcases List.mem_cons.mp hb with rfl | hb'
      · rw [hsvc] at hmsg
        exact absurd hmsg (by simp)
      · exact ih ⟨b, hb', msg, hmsg⟩
    | error e =>
      rw [runBatches, hsvc]

theorem subset_addTruthy (tid : Option String) (keep : Finset String) :
    keep ⊆ addTruthy tid keep := by
  cases tid with
  | none => exact subset_refl _
  | some s =>
    simp only [addTruthy]
    by_cases hs : s = ""
    · rw [if_pos hs]
    · rw [if_neg hs]
      exact Finset.subset_insert _ _

theorem mem_addTruthy {tid : Option String} {keep : Finset String} {x : String} :
    x ∈ addTruthy tid keep ↔ x ∈ keep ∨ (tid = some x ∧ x ≠ "") := by
  cases tid with
  | none => simp [addTruthy]
  | some s =>
    simp only [addTruthy]
    by_cases hs : s = ""
    · subst hs
      rw [if_pos rfl]
      constructor
      · exact fun h => Or.inl h
      · rintro (h | ⟨he, hne⟩)
        · exact h
        · injection he with h2
          exact absurd h2.symm hne
    · rw [if_neg hs]
      simp only [Finset.mem_insert]
      constructor
      · rintro (rfl | h)
        · exact Or.inr ⟨rfl, hs⟩
        · exact Or.inl h
      · rintro (h | ⟨he, -⟩)
        · exact Or.inr h
        · injection he with h2
          exact Or.inl h2.symm

theorem subset_keepAllIds (entries : List Entry) (keep : Finset String) :
    keep ⊆ keepAllIds entries keep := by
  induction entries generalizing keep with
  | nil => exact subset_refl _
  | cons e es ih =>
    exact subset_trans (subset_addTruthy e.track_id keep) (ih _)

theorem subset_applyRemoveMode (nums : List Nat) :
    ∀ (entries : List Entry) (i : Nat) (keep : Finset String),
      keep ⊆ (applyRemoveMode nums i entries keep).2 := by
  intro entries
  induction entries with
  | nil => intro i keep; exact subset_refl _
  | cons e es ih =>
    intro i keep
    by_cases h : i ∈ nums
    · simp only [applyRemoveMode, if_pos h]
      exact ih (i + 1) keep
    · simp only [applyRemoveMode, if_neg h]
      exact subset_trans (subset_addTruthy e.track_id keep) (ih (i + 1) _)

theorem subset_applyKeepMode (nums : List Nat) :
    ∀ (entries : List Entry) (i : Nat) (keep : Finset String),
      keep ⊆ (applyKeepMode nums i entries keep).2 := by
  intro entries
  induction entries with
  | nil => intro i keep; exact subset_refl _
  | cons e es ih =>
    intro i keep
    by_cases h : i ∈ nums
    · simp only [applyKeepMode, if_pos h]
      exact subset_trans (subset_addTruthy e.track_id keep) (ih (i + 1) _)
    · simp only [applyKeepMode, if_neg h]
      exact ih (i + 1) keep

/-- C7: within a run the keep cache only grows: the auto-duplicate commit
phase, every manual-review reply, and every year-review track step return a
keep cache containing everything the incoming one contained. -/
theorem keep_cache_monotone :
    (∀ (svc : List (String × List Nat) → Except String Unit)
        (cands : List (Entry × Entry)) (keep : Finset String),
      keep ⊆ (autoCommitPhase svc cands keep).2) ∧
    (∀ (resp : String) (entries : List Entry) (keep : Finset String),
      keep ⊆ (manualGroupStep resp entries keep).2.2) ∧
    (∀ (cutoff : Nat) (t : Track) (choice : String) (keep : Finset String)
        (uris : List String),
      keep ⊆ (yearTrackStep cutoff t choice keep uris).1) := by
  refine ⟨?_, ?_, ?_⟩
  · intro svc cands keep
    simp only [autoCommitPhase]
    split
    · exact Finset.subset_union_left
    · exact subset_refl _
  · intro resp entries keep
    unfold manualGroupStep
    by_cases hq : resp = "q"
    · rw [if_pos hq]
    · rw [if_neg hq]
      by_cases he : resp = ""
      · rw [if_pos he]
        exact subset_keepAllIds entries keep
      · rw [if_neg he]
        cases hp : parseIndexList
            (if startsWithDash resp then stripStr (dropFirst resp) else resp) with
        | none => exact subset_refl _
        | some nums =>
          dsimp only
          by_cases hn : nums.isEmpty
          · rw [if_pos hn]
            exact subset_keepAllIds entries keep
          · rw [if_neg hn]
            by_cases hall :
                nums.all (fun n => decide (1 ≤ n) && decide (n ≤ entries.length)) = true
            · rw [if_pos hall]
              by_cases hd : startsWithDash resp = true
              · rw [if_pos hd]
                exact subset_applyRemoveMode nums entries 1 keep
              · rw [if_neg hd]
                exact subset_applyKeepMode nums entries 1 keep
            · rw [if_neg hall]
  · intro cutoff t choice keep uris
    unfold yearTrackStep
    cases h : yearTrackAction cutoff keep t choice <;>
      first
        | exact subset_refl _
        | exact subset_addTruthy t.track_id keep

/-- C5: when a remote removal call raises during the batch loop, the error
is caught and `commit_duplicate_removals` returns `False` (the model is a
total function: nothing propagates); the auto-duplicate caller updates the
keep cache with the committed bases only when the commit returned `True`,
so on `False` the keep cache is exactly the incoming one. -/
theorem commit_failure_keeps_cache_unchanged
    (svc : List (String × List Nat) → Except String Unit)
    (ask_confirm : Bool) (confirm : String) (removals : List RemovalReq)
    (cands : List (Entry × Entry)) (keep : Finset String) :
    ((∃ b ∈ (commit_duplicate_removals svc ask_confirm confirm removals).2,
        ∃ msg, svc b = Except.error msg) →
      (commit_duplicate_removals svc ask_confirm confirm removals).1 = false) ∧
    ((commit_duplicate_removals svc false ""
        (cands.map (fun c => RemovalReq.mk c.1.track_id c.1.playlist_index))).1
          = false →
      (autoCommitPhase svc cands keep).2 = keep) ∧
    ((commit_duplicate_removals svc false ""
        (cands.map (fun c => RemovalReq.mk c.1.track_id c.1.playlist_index))).1
          = true →
      (autoCommitPhase svc cands keep).2 =
        keep ∪ cands.foldl (fun s c => addTruthy c.2.track_id s) ∅) := by
  refine ⟨?_, ?_, ?_⟩
  · intro hex
    unfold commit_duplicate_removals at hex ⊢
    by_cases h1 : removals.isEmpty
    · rw [if_pos h1]
    · rw [if_neg h1] at hex ⊢
      by_cases h2 : (itemsMapOf removals).isEmpty
      · rw [if_pos h2]
      · rw [if_neg h2] at hex ⊢
        by_cases h3 : (ask_confirm && !(confirm = "y")) = true
        · rw [if_pos h3]
        · rw [if_neg h3] at hex ⊢
          exact runBatches_error hex
  · intro hfalse
    simp only [autoCommitPhase]
    rw [hfalse]
    simp
  · intro htrue
    simp only [autoCommitPhase]
    rw [htrue]
    simp

/-- Witness for C5: a service that always raises, one removal request, one
candidate pair; the commit reports `False` and the keep cache is unchanged. -/
theorem commit_failure_keeps_cache_unchanged_witness :
    (commit_duplicate_removals alwaysFailService false ""
        [RemovalReq.mk (some "t1") 4]).1 = false ∧
    (autoCommitPhase alwaysFailService
        [(Entry.mk 4 200000 (some "t1"), Entry.mk 1 200500 (some "t0"))]
        ∅).2 = ∅ := by
  constructor
  · exact (commit_failure_keeps_cache_unchanged alwaysFailService false ""
      [RemovalReq.mk (some "t1") 4] [] ∅).1
      ⟨[("t1", [4])], by decide, "HTTP 502", rfl⟩
  · exact (commit_failure_keeps_cache_unchanged alwaysFailService false "" []
      [(Entry.mk 4 200000 (some "t1"), Entry.mk 1 200500 (some "t0"))] ∅).2.1
      (by decide)

theorem insertByIndex_perm (e : Entry) :
    ∀ l : List Entry, List.Perm (insertByIndex e l) (e :: l) := by
  intro l
  induction l with
  | nil => exact List.Perm.refl _
  | cons f fs ih =>
    rw [insertByIndex]
    by_cases h : f.playlist_index < e.playlist_index
    · rw [if_pos h]
      exact (ih.cons f).trans (List.Perm.swap e f fs)
    · rw [if_neg h]

theorem sortByIndex_perm : ∀ l : List Entry, List.Perm (sortByIndex l) l := by
  intro l
  induction l with
  | nil => exact List.Perm.refl _
  | cons x xs ih =>
    exact (insertByIndex_perm x (sortByIndex xs)).trans (ih.cons x)

theorem sorted_insertByIndex (e : Entry) :
    ∀ {l : List Entry},
      List.Sorted (fun a b : Entry => a.playlist_index ≤ b.playlist_index) l →
      List.Sorted (fun a b : Entry => a.playlist_index ≤ b.playlist_index)
        (insertByIndex e l) := by
  intro l
  induction l with
  | nil =>
    intro _
    exact List.sorted_singleton e
  | cons f fs ih =>
    intro h
    rcases List.sorted_cons.mp h with ⟨hf, hfs⟩
    rw [insertByIndex]
    by_cases hlt : f.playlist_index < e.playlist_index
    · rw [if_pos hlt]
      refine List.sorted_cons.mpr ⟨?_, ih hfs⟩
      intro x hx
      rcases List.mem_cons.mp ((insertByIndex_perm e fs).mem_iff.mp hx) with rfl | h3
      · exact Nat.le_of_lt hlt
      · exact hf x h3
    · rw [if_neg hlt]
      refine List.sorted_cons.mpr ⟨?_, h⟩
      intro x hx
      rcases List.mem_cons.mp hx with rfl | h'
      · exact Nat.le_of_not_lt hlt
      · exact le_trans (Nat.le_of_not_lt hlt) (hf x h')

theorem sorted_sortByIndex : ∀ l : List Entry,
    List.Sorted (fun a b : Entry => a.playlist_index ≤ b.playlist_index)
      (sortByIndex l) := by
  intro l
  induction l with
  | nil => exact List.sorted_nil
  | cons x xs ih => exact sorted_insertByIndex x ih

/-- C2: for a candidate duplicate group (at least two entries, with
distinct playlist positions) the selector's base is the entry with the
smallest playlist position; a base with duration at most 0 yields no
automatic candidates; otherwise the candidates are exactly the non-base
entries with positive duration whose duration differs from the base's by
at most 3000 ms, paired with that base, in sorted (position) order, and
the base itself is never among them. -/
theorem autoCandidatesOfGroup_spec (entries : List Entry)
    (h2 : 2 ≤ entries.length)
    (hnd : (entries.map Entry.playlist_index).Nodup) :
    ∃ base rest, sortByIndex entries = base :: rest ∧
      base ∈ entries ∧
      (∀ e ∈ entries, base.playlist_index ≤ e.playlist_index) ∧
      (base.duration_ms ≤ 0 → autoCandidatesOfGroup entries = []) ∧
      (0 < base.duration_ms →
        autoCandidatesOfGroup entries =
          rest.filterMap (fun e =>
            if e.duration_ms ≤ 0 then none
            else if |e.duration_ms - base.duration_ms| ≤ thresholdMs then
              some (e, base)
            else none)) ∧
      (∀ p ∈ autoCandidatesOfGroup entries,
        p.2 = base ∧ p.1 ≠ base ∧ 0 < p.1.duration_ms ∧
          |p.1.duration_ms - base.duration_ms| ≤ 3000) := by
  have hperm := sortByIndex_perm entries
  have hsorted := sorted_sortByIndex entries
  obtain ⟨base, rest, hsort⟩ : ∃ base rest, sortByIndex entries = base :: rest := by
    cases hs : sortByIndex entries with
    | nil =>
      exfalso
      have := hperm.length_eq
      rw [hs] at this
      simp at this
      omega
    | cons b r => exact ⟨b, r, rfl⟩
  rw [hsort] at hperm hsorted
  have hmin : ∀ e ∈ entries, base.playlist_index ≤ e.playlist_index := by
    intro e he
    rcases List.mem_cons.mp (hperm.mem_iff.mpr he) with rfl | h'
    · exact le_refl _
    · exact List.rel_of_sorted_cons hsorted e h'
  have hbase_mem : base ∈ entries :=
    hperm.mem_iff.mp (List.mem_cons_self base rest)
  have hunfold : autoCandidatesOfGroup entries =
      if base.duration_ms ≤ 0 then []
      else
        rest.filterMap (fun e =>
          if e.duration_ms ≤ 0 then none
          else if |e.duration_ms - base.duration_ms| ≤ thresholdMs then
            some (e, base)
          else none) := by
    unfold autoCandidatesOfGroup
    rw [if_neg (by omega), hsort]
  refine ⟨base, rest, hsort, hbase_mem, hmin, ?_, ?_, ?_⟩
  · intro hdur
    rw [hunfold, if_pos hdur]
  · intro hdur
    rw [hunfold, if_neg (by omega)]
  · intro p hp
    rw [hunfold] at hp
    by_cases hdur : base.duration_ms ≤ 0
    · rw [if_pos hdur] at hp
      simp at hp
    · rw [if_neg hdur] at hp
      rcases List.mem_filterMap.mp hp with ⟨e, he, hfe⟩
      by_cases he0 : e.duration_ms ≤ 0
      · rw [if_pos he0] at hfe
        exact absurd hfe (by simp)
      · rw [if_neg he0] at hfe
        by_cases hth : |e.duration_ms - base.duration_ms| ≤ thresholdMs
        · rw [if_pos hth] at hfe
          have hpe : p = (e, base) := by
            simpa using hfe.symm
          subst hpe
          have hne : e ≠ base := by
            intro heq
            have hnd' : ((base :: rest).map Entry.playlist_index).Nodup :=
              (hperm.map Entry.playlist_index).nodup_iff.mpr hnd
            rcases List.nodup_cons.mp hnd' with ⟨hnotmem, -⟩
            subst heq
            exact hnotmem (List.mem_map_of_mem Entry.playlist_index he)
          refine ⟨rfl, hne, ?_, ?_⟩
          · show 0 < e.duration_ms
            omega
          · show |e.duration_ms - base.duration_ms| ≤ 3000
            have hth' : thresholdMs = 3000 := by decide
            rw [hth'] at hth
            exact hth
        · rw [if_neg hth] at hfe
          exact absurd hfe (by simp)

/-- Witness for C2 at a concrete two-entry group (durations 120.0 s and
122.0 s, 2 s apart). -/
theorem autoCandidatesOfGroup_spec_witness :
    2 ≤ ([⟨0, 120000, some "a"⟩, ⟨1, 122000, some "b"⟩] : List Entry).length ∧
    (([⟨0, 120000, some "a"⟩, ⟨1, 122000, some "b"⟩] : List Entry).map
        Entry.playlist_index).Nodup ∧
    ∃ base rest,
      sortByIndex [⟨0, 120000, some "a"⟩, ⟨1, 122000, some "b"⟩] = base :: rest ∧
      base ∈ ([⟨0, 120000, some "a"⟩, ⟨1, 122000, some "b"⟩] : List Entry) ∧
      (∀ e ∈ ([⟨0, 120000, some "a"⟩, ⟨1, 122000, some "b"⟩] : List Entry),
        base.playlist_index ≤ e.playlist_index) ∧
      (base.duration_ms ≤ 0 →
        autoCandidatesOfGroup [⟨0, 120000, some "a"⟩, ⟨1, 122000, some "b"⟩]
          = []) ∧
      (0 < base.duration_ms →
        autoCandidatesOfGroup [⟨0, 120000, some "a"⟩, ⟨1, 122000, some "b"⟩] =
          rest.filterMap (fun e =>
            if e.duration_ms ≤ 0 then none
            else if |e.duration_ms - base.duration_ms| ≤ thresholdMs then
              some (e, base)
            else none)) ∧
      (∀ p ∈ autoCandidatesOfGroup
          [⟨0, 120000, some "a"⟩, ⟨1, 122000, some "b"⟩],
        p.2 = base ∧ p.1 ≠ base ∧ 0 < p.1.duration_ms ∧
          |p.1.duration_ms - base.duration_ms| ≤ 3000) :=
  ⟨by decide, by decide,
    autoCandidatesOfGroup_spec [⟨0, 120000, some "a"⟩, ⟨1, 122000, some "b"⟩]
      (by decide) (by decide)⟩

theorem applyRemoveMode_spec (nums : List Nat) :
    ∀ (entries : List Entry) (i : Nat) (keep : Finset String),
      (applyRemoveMode nums i entries keep).1 =
        (List.enumFrom i entries).filterMap (fun q =>
          if q.1 ∈ nums then
            some (RemovalReq.mk q.2.track_id q.2.playlist_index)
          else none) ∧
      (∀ x, x ∈ (applyRemoveMode nums i entries keep).2 ↔
        x ∈ keep ∨ ∃ q ∈ List.enumFrom i entries,
          q.1 ∉ nums ∧ q.2.track_id = some x ∧ x ≠ "") := by
  intro entries
  induction entries with
  | nil =>
    intro i keep
    refine ⟨rfl, ?_⟩
    intro x
    simp [applyRemoveMode, List.enumFrom]
  | cons e es ih =>
    intro i keep
    by_cases h : i ∈ nums
    · simp only [applyRemoveMode, if_pos h]
      constructor
      · show _ :: (applyRemoveMode nums (i + 1) es keep).1 = _
        rw [(ih (i + 1) keep).1]
        show _ = List.filterMap _ ((i, e) :: List.enumFrom (i + 1) es)
        rw [List.filterMap_cons]
        simp [h]
      · intro x
        show x ∈ (applyRemoveMode nums (i + 1) es keep).2 ↔ _
        rw [(ih (i + 1) keep).2 x]
        show _ ↔ _ ∨ ∃ q ∈ (i, e) :: List.enumFrom (i + 1) es, _
        constructor
        · rintro (hk | ⟨q, hq, hcond⟩)
          · exact Or.inl hk
          · exact Or.inr ⟨q, List.mem_cons_of_mem _ hq, hcond⟩
        · rintro (hk | ⟨q, hq, hcond⟩)
          · exact Or.inl hk
          · rcases List.mem_cons.mp hq with rfl | hq2
            · exact absurd h hcond.1
            · exact Or.inr ⟨q, hq2, hcond⟩
    · simp only [applyRemoveMode, if_neg h]
      constructor
      · rw [(ih (i + 1) (addTruthy e.track_id keep)).1]
        show _ = List.filterMap _ ((i, e) :: List.enumFrom (i + 1) es)
        rw [List.filterMap_cons]
        simp [h]
      · intro x
        rw [(ih (i + 1) (addTruthy e.track_id keep)).2 x, mem_addTruthy]
        show _ ↔ _ ∨ ∃ q ∈ (i, e) :: List.enumFrom (i + 1) es, _
        constructor
        · rintro ((hk | ⟨he2, hne2⟩) | ⟨q, hq, hcond⟩)
          · exact Or.inl hk
          · exact Or.inr ⟨(i, e), List.mem_cons_self _ _, h, he2, hne2⟩
          · exact Or.inr ⟨q, List.mem_cons_of_mem _ hq, hcond⟩
        · rintro (hk | ⟨q, hq, hcond⟩)
          · exact Or.inl (Or.inl hk)
          · rcases List.mem_cons.mp hq with rfl | hq2
            · exact Or.inl (Or.inr ⟨hcond.2.1, hcond.2.2⟩)
            · exact Or.inr ⟨q, hq2, hcond⟩

/-- C3: in manual review, a REMOVE-set reply (a comma list of valid 1-based
indices prefixed with `-`) turns exactly the listed entries into removal
requests, in group order, and adds every other entry's track id to the keep
cache (the ids that are present and nonempty); review then proceeds to the
next group. -/
theorem manual_remove_set_spec (resp : String) (entries : List Entry)
    (keep : Finset String) (nums : List Nat)
    (hq : resp ≠ "q") (hne : resp ≠ "")
    (hdash : startsWithDash resp = true)
    (hparse : parseIndexList (stripStr (dropFirst resp)) = some nums)
    (hnums : nums ≠ [])
    (hvalid : ∀ n ∈ nums, 1 ≤ n ∧ n ≤ entries.length) :
    (manualGroupStep resp entries keep).1 = ManualFlag.proceed ∧
    (manualGroupStep resp entries keep).2.1 =
      (List.enumFrom 1 entries).filterMap (fun q =>
        if q.1 ∈ nums then some (RemovalReq.mk q.2.track_id q.2.playlist_index)
        else none) ∧
    ∀ x, x ∈ (manualGroupStep resp entries keep).2.2 ↔
      x ∈ keep ∨ ∃ q ∈ List.enumFrom 1 entries,
        q.1 ∉ nums ∧ q.2.track_id = some x ∧ x ≠ "" := by
  have hstep : manualGroupStep resp entries keep =
      (ManualFlag.proceed, (applyRemoveMode nums 1 entries keep).1,
        (applyRemoveMode nums 1 entries keep).2) := by
    unfold manualGroupStep
    rw [if_neg hq, if_neg hne, if_pos hdash, hparse]
    dsimp only
    rw [if_neg (show ¬nums.isEmpty = true from by
      cases nums with
      | nil => exact absurd rfl hnums
      | cons a l => simp)]
    rw [if_pos (List.all_eq_true.mpr (fun n hn => by
      simp [(hvalid n hn).1, (hvalid n hn).2]))]
    rw [if_pos hdash]
  rw [hstep]
  exact ⟨rfl, (applyRemoveMode_spec nums entries 1 keep).1,
    (applyRemoveMode_spec nums entries 1 keep).2⟩

/-- Witness for C3: reply `"-2"` on a three-entry group. -/
theorem manual_remove_set_spec_witness :
    (manualGroupStep "-2"
        [⟨5, 100, some "id1"⟩, ⟨6, 200, some "id2"⟩, ⟨7, 300, some "id3"⟩]
        ∅).1 = ManualFlag.proceed ∧
    (manualGroupStep "-2"
        [⟨5, 100, some "id1"⟩, ⟨6, 200, some "id2"⟩, ⟨7, 300, some "id3"⟩]
        ∅).2.1 =
      (List.enumFrom 1
        ([⟨5, 100, some "id1"⟩, ⟨6, 200, some "id2"⟩, ⟨7, 300, some "id3"⟩]
          : List Entry)).filterMap (fun q =>
        if q.1 ∈ [2] then some (RemovalReq.mk q.2.track_id q.2.playlist_index)
        else none) ∧
    ∀ x, x ∈ (manualGroupStep "-2"
        [⟨5, 100, some "id1"⟩, ⟨6, 200, some "id2"⟩, ⟨7, 300, some "id3"⟩]
        ∅).2.2 ↔
      x ∈ (∅ : Finset String) ∨ ∃ q ∈ List.enumFrom 1
        ([⟨5, 100, some "id1"⟩, ⟨6, 200, some "id2"⟩, ⟨7, 300, some "id3"⟩]
          : List Entry),
        q.1 ∉ [2] ∧ q.2.track_id = some x ∧ x ≠ "" :=
  manual_remove_set_spec "-2"
    [⟨5, 100, some "id1"⟩, ⟨6, 200, some "id2"⟩, ⟨7, 300, some "id3"⟩]
    ∅ [2] (by decide) (by decide) (by decide) (by decide) (by decide)
    (by decide)

theorem yearPromptResult_ne_autoKept (choice : String) :
    yearPromptResult choice ≠ YearAction.autoKept := by
  unfold yearPromptResult
  split_ifs <;> simp

/-- C4: for a track not already in the keep cache, a year is derived from
the first (up to) four characters of the effective release-date string iff
that prefix is nonempty and all digits (an absent or empty release date
falls back to "unknown", hence no year); a known year at or before the
cutoff is auto-kept with no prompt; a known year after the cutoff and an
unknown year both go to the prompt, and an unknown year is never
auto-kept. -/
theorem year_filter_track_spec (cutoff : Nat) (keep : Finset String) (t : Track)
    (hnk : inKeep keep t.track_id = false) :
    (∀ y, yearOf t = some y ↔
      ((effReleaseDate t).data.isEmpty = false ∧
        ((effReleaseDate t).data.take 4).isEmpty = false ∧
        (∀ c ∈ (effReleaseDate t).data.take 4, c.isDigit = true)) ∧
        y = digitsToNat ((effReleaseDate t).data.take 4)) ∧
    (∀ y choice, yearOf t = some y → y ≤ cutoff →
      yearTrackAction cutoff keep t choice = YearAction.autoKept) ∧
    (∀ y choice, yearOf t = some y → cutoff < y →
      yearTrackAction cutoff keep t choice = yearPromptResult choice) ∧
    (∀ choice, yearOf t = none →
      yearTrackAction cutoff keep t choice = yearPromptResult choice ∧
      yearTrackAction cutoff keep t choice ≠ YearAction.autoKept) := by
  have hnk2 : ¬inKeep keep t.track_id = true := by
    rw [hnk]
    simp
  refine ⟨?_, ?_, ?_, ?_⟩
  · intro y
    simp only [yearOf, yearStrOf]
    by_cases hc : (!(effReleaseDate t).data.isEmpty &&
        !((effReleaseDate t).data.take 4).isEmpty &&
        ((effReleaseDate t).data.take 4).all Char.isDigit) = true
    · rw [if_pos hc]
      simp only [Bool.and_eq_true, Bool.not_eq_true'] at hc
      constructor
      · intro hy
        have hy2 : digitsToNat ((effReleaseDate t).data.take 4) = y := by
          simpa using hy
        exact ⟨⟨hc.1.1, hc.1.2, List.all_eq_true.mp hc.2⟩, hy2.symm⟩
      · rintro ⟨-, rfl⟩
        simp
    · rw [if_neg hc]
      constructor
      · intro hy
        exact absurd hy (by simp)
      · rintro ⟨⟨h1, h2, h3⟩, -⟩
        exact absurd (by
          simp only [Bool.and_eq_true, Bool.not_eq_true']
          exact ⟨⟨h1, h2⟩, List.all_eq_true.mpr h3⟩) hc
  · intro y choice hy hycut
    unfold yearTrackAction
    rw [if_neg hnk2, hy]
    dsimp only
    rw [if_pos hycut]
  · intro y choice hy hylt
    unfold yearTrackAction
    rw [if_neg hnk2, hy]
    dsimp only
    rw [if_neg (Nat.not_le.mpr hylt)]
  · intro choice hy
    unfold yearTrackAction
    rw [if_neg hnk2, hy]
    exact ⟨rfl, yearPromptResult_ne_autoKept choice⟩

/-- Witness for C4: with cutoff 1992, a 1985 release is auto-kept and a
track with no release date goes to the prompt and is never auto-kept. -/
theorem year_filter_track_spec_witness :
    yearTrackAction 1992 ∅ ⟨some "t85", some "1985-06-01", "u85"⟩ "n"
        = YearAction.autoKept ∧
    (yearTrackAction 1992 ∅ ⟨some "tx", none, "ux"⟩ "y"
        = yearPromptResult "y" ∧
      yearTrackAction 1992 ∅ ⟨some "tx", none, "ux"⟩ "y"
        ≠ YearAction.autoKept) :=
  ⟨(year_filter_track_spec 1992 ∅ ⟨some "t85", some "1985-06-01", "u85"⟩
      (by decide)).2.1 1985 "n" (by decide) (by decide),
   (year_filter_track_spec 1992 ∅ ⟨some "tx", none, "ux"⟩
      (by decide)).2.2.2 "y" (by decide)⟩

/-- Witness for C7 at concrete inputs for each of the three steps. -/
theorem keep_cache_monotone_witness :
    ({"x"} : Finset String) ⊆
      (autoCommitPhase alwaysOkService [] {"x"}).2 ∧
    ({"x"} : Finset String) ⊆
      (manualGroupStep "" [⟨0, 100, some "a"⟩] {"x"}).2.2 ∧
    ({"x"} : Finset String) ⊆
      (yearTrackStep 1992 ⟨some "a", none, "u"⟩ "n" {"x"} []).1 :=
  ⟨keep_cache_monotone.1 alwaysOkService [] {"x"},
   keep_cache_monotone.2.1 "" [⟨0, 100, some "a"⟩] {"x"},
   keep_cache_monotone.2.2 1992 ⟨some "a", none, "u"⟩ "n" {"x"} []⟩

end SpotifyFilter
